import Mathlib

/-!
Verification of the marmot-db vendored FASTER in-memory key-value store.

The visible sources are `src/deps/faster/src/device/null_disk.h` (the
in-memory device) and `src/deps/faster/test/in_memory_test.cc` (the test
harness, which also defines the caller-supplied hooks: Put/PutAtomic,
Get/GetAtomic, RmwInitial/RmwCopy/RmwAtomic, and the generation lock
`AtomicGenLock`).  The `FasterKv` engine itself (`core/faster.h`) is not in
the repository; where a claim depends on it, the engine is modelled from the
specification (see the `Modelled from the spec:` doc comments).

Machine integers are embedded as `Nat` with explicit `% 2^64` where wraparound
matters; `int8_t` bytes are embedded as `Int` values in `[-128, 128)` with an
explicit wrap function.
-/

/-- The closed status enumeration of the store (spec section 6; `Status` in the
sources). -/
inductive Status where
  | Ok
  | NotFound
  | Pending
  | OutOfMemory
  | Aborted
  | NotInMemory
  | TooManyThreads
deriving DecidableEq

/-! ## The in-memory (null) device, from `src/device/null_disk.h`.

`ReadAsync` and `WriteAsync` invoke the supplied callback synchronously with
`Status::Ok` and the requested `length`, then return `Status::Ok`.  We record
each callback invocation as an `AsyncCall` event; the returned event list holds
one entry per invocation. -/

/-- One invocation of an `AsyncIOCallback`: the status and length passed to it. -/
structure AsyncCall where
  cbStatus : Status
  cbLength : Nat
deriving DecidableEq

/-- `NullFile::ReadAsync(source, dest, length, callback, context)`:
`callback(&context, Status::Ok, length); return Status::Ok;`. -/
def NullFile.ReadAsync (_source : Nat) (length : Nat) : Status × List AsyncCall :=
  (Status.Ok, [⟨Status.Ok, length⟩])

/-- `NullFile::WriteAsync(source, dest, length, callback, context)`:
`callback(&context, Status::Ok, length); return Status::Ok;`. -/
def NullFile.WriteAsync (_dest : Nat) (length : Nat) : Status × List AsyncCall :=
  (Status.Ok, [⟨Status.Ok, length⟩])

/-- `NullDisk::TryComplete()`: `return false;`. -/
def NullDisk.TryComplete : Bool := false

/-- `NullFile::alignment()`: `return 64;`. -/
def NullFile.alignment : Nat := 64

/-- `NullDisk::sector_size()`: `return 64;`. -/
def NullDisk.sector_size : Nat := 64

/-! ## The generation lock, from the test source (`GenLock` / `AtomicGenLock`).

The 64-bit control word packs `gen_number : 62`, `locked : 1`, `replaced : 1`
(low to high).  We embed the word as a `Nat` below `2^64` and the bit fields as
arithmetic projections. -/

/-- The `gen_number` field of a lock word: the low 62 bits. -/
def genOf (c : Nat) : Nat := c % 2 ^ 62

/-- The `locked` bit of a lock word: bit 62. -/
def lockedBit (c : Nat) : Nat := c / 2 ^ 62 % 2

/-- The `replaced` bit of a lock word: bit 63. -/
def replacedBit (c : Nat) : Nat := c / 2 ^ 63 % 2

/-- Result of `AtomicGenLock::try_lock(bool& replaced)`: whether it returned
true, the resulting lock word, and the value left in the `replaced`
out-parameter. -/
structure TryLockResult where
  success : Bool
  word : Nat
  replacedOut : Bool
deriving DecidableEq

/-- `AtomicGenLock::try_lock`, single-thread semantics on the current word `c`:
`expected` is the loaded word with `locked` and `replaced` cleared, `desired`
is `expected` with `locked` set; a `compare_exchange_strong` succeeds exactly
when the word equals `expected` (both bits clear), otherwise the word is left
unchanged and `expected` is refreshed to the current word, whose `replaced`
bit then drives the out-parameter. -/
def AtomicGenLock.try_lock (c : Nat) : TryLockResult :=
  let expected := c % 2 ^ 62
  let desired := expected + 2 ^ 62
  if c = expected then
    ⟨true, desired, false⟩
  else
    ⟨false, c, decide (c / 2 ^ 63 % 2 = 1)⟩

/-- `AtomicGenLock::unlock(bool replaced)`: with `replaced` it does
`fetch_sub((1 << 62) - 1)`, otherwise `fetch_add((1 << 63) - (1 << 62) + 1)`;
both wrap at 2^64. -/
def AtomicGenLock.unlock (replaced : Bool) (c : Nat) : Nat :=
  if replaced then
    (c + 2 ^ 64 - (2 ^ 62 - 1)) % 2 ^ 64
  else
    (c + (2 ^ 63 - 2 ^ 62 + 1)) % 2 ^ 64

/-! ## Spec-modelled in-memory engine.

The `FasterKv` engine (`core/faster.h`) is not part of this repository; only
its tests and the device seam are.  The definitions below are modelled from
the specification, sections 4.3-4.5: a power-of-two hash index of per-bucket
record chains into an append-only log, with the operation dispatch of
section 4.4 (atomic in-place mutation at or above the read-only boundary,
append otherwise, insert on chain exhaustion).  In the in-memory
configuration every operation completes synchronously, so each operation
returns its status together with the list of completion-callback
invocations it performed (always empty). -/

/-- Which caller hook delivered a read result: the atomic `GetAtomic`
(records in the mutable region) or the non-atomic `Get` (immutable
records). -/
inductive ReadPath where
  | atomicGet
  | plainGet
deriving DecidableEq

/-- A record reachable from a hash chain: its key, its logical log address,
and its current value. -/
structure RecEntry (V : Type) where
  key : Nat
  addr : Nat
  val : V
deriving DecidableEq

/-- Modelled from the spec: the reachable state of the `FasterKv` store
(missing `core/faster.h`) — the hash index (`numBuckets` buckets, each a
chain of records, newest first, threaded by `previous_address`), the
`read_only` boundary offset and the log `tail` offset. -/
structure KvStore (V : Type) where
  numBuckets : Nat
  readOnlyAddr : Nat
  tailAddr : Nat
  chains : Nat → List (RecEntry V)

/-- The store as constructed: empty chains, all log offsets zero. -/
def kvInit (V : Type) (buckets : Nat) : KvStore V :=
  ⟨buckets, 0, 0, fun _ => []⟩

/-- The chain walk of spec section 4.3: follow the chain from the bucket
head, returning the first record whose key matches. -/
def chainFind {V : Type} (k : Nat) : List (RecEntry V) → Option (RecEntry V)
  | [] => none
  | e :: rest => if e.key = k then some e else chainFind k rest

/-- Atomic in-place update of the first chain record matching `k` (the
caller's `PutAtomic`/`RmwAtomic` hook applied to a mutable record; the
record keeps its address). -/
def chainPutAtomic {V : Type} (k : Nat) (v : V) :
    List (RecEntry V) → List (RecEntry V)
  | [] => []
  | e :: rest =>
    if e.key = k then { e with val := v } :: rest
    else e :: chainPutAtomic k v rest

/-- Replace the chain of bucket `b`. -/
def KvStore.setChain {V : Type} (st : KvStore V) (b : Nat)
    (chain : List (RecEntry V)) : KvStore V :=
  { st with chains := fun i => if i = b then chain else st.chains i }

/-- Append a fresh record for key `k` at the log tail and install it as the
new head of bucket `b`'s chain (spec section 4.4, phase C). -/
def KvStore.append {V : Type} (st : KvStore V) (b : Nat) (k : Nat) (v : V) :
    KvStore V :=
  { st with
    chains := fun i =>
      if i = b then ⟨k, st.tailAddr, v⟩ :: st.chains i else st.chains i,
    tailAddr := st.tailAddr + 1 }

/-- Result of an Upsert: status, new store, callback invocations. -/
structure UpsertOut (V : Type) where
  status : Status
  store : KvStore V
  callbacks : List Status

/-- Result of a Read: status, which hook delivered the value, the value
delivered, callback invocations. -/
structure ReadOut (V : Type) where
  status : Status
  path : Option ReadPath
  value : Option V
  callbacks : List Status

/-- Result of an Rmw: status, new store, callback invocations. -/
structure RmwOut (V : Type) where
  status : Status
  store : KvStore V
  callbacks : List Status

/-- Modelled from the spec: `FasterKv::Upsert` (missing `core/faster.h`),
spec section 4.4 — walk the chain; on a match at or above `read_only`
perform the caller's atomic put in place; on a match below the boundary, or
no match, append a fresh record built by the caller's non-atomic `Put` and
install it.  In-memory the operation completes synchronously with `Ok` and
no callback fires. -/
def KvStore.upsert {V : Type} (st : KvStore V) (hash : Nat → Nat) (k : Nat)
    (v : V) : UpsertOut V :=
  let b := hash k % st.numBuckets
  match chainFind k (st.chains b) with
  | some e =>
    if st.readOnlyAddr ≤ e.addr then
      ⟨Status.Ok, st.setChain b (chainPutAtomic k v (st.chains b)), []⟩
    else
      ⟨Status.Ok, st.append b k v, []⟩
  | none => ⟨Status.Ok, st.append b k v, []⟩

/-- Modelled from the spec: `FasterKv::Read` (missing `core/faster.h`),
spec sections 4.4-4.5 — walk the chain; on a match deliver the value
through `GetAtomic` when the record is at or above `read_only` and through
the non-atomic `Get` otherwise; on chain exhaustion return `NotFound`. -/
def KvStore.read {V : Type} (st : KvStore V) (hash : Nat → Nat) (k : Nat) :
    ReadOut V :=
  match chainFind k (st.chains (hash k % st.numBuckets)) with
  | some e =>
    if st.readOnlyAddr ≤ e.addr then
      ⟨Status.Ok, some ReadPath.atomicGet, some e.val, []⟩
    else
      ⟨Status.Ok, some ReadPath.plainGet, some e.val, []⟩
  | none => ⟨Status.NotFound, none, none, []⟩

/-- Modelled from the spec: `FasterKv::Rmw` (missing `core/faster.h`), spec
section 4.4 — on a match at or above `read_only` apply the caller's
`RmwAtomic` in place; on a match below the boundary append a record built
by `RmwCopy` from the old value; on chain exhaustion append a record built
by `RmwInitial`.  Rmw never returns `NotFound`. -/
def KvStore.rmw {V : Type} (st : KvStore V) (hash : Nat → Nat) (k : Nat)
    (initial : V) (atomicMod : V → V) (copyMod : V → V) : RmwOut V :=
  let b := hash k % st.numBuckets
  match chainFind k (st.chains b) with
  | some e =>
    if st.readOnlyAddr ≤ e.addr then
      ⟨Status.Ok, st.setChain b (chainPutAtomic k (atomicMod e.val) (st.chains b)), []⟩
    else
      ⟨Status.Ok, st.append b k (copyMod e.val), []⟩
  | none => ⟨Status.Ok, st.append b k initial, []⟩

/-- The degenerate hash of `InMemFaster.UpsertRead_DummyHash`:
`Key::GetHash` always returns `KeyHash{ 42 }`. -/
def dummyHash (_k : Nat) : Nat := 42

/-- The store state after upserting keys `0..n-1`, each storing its key as
its value, with the constant hash — `InMemFaster.UpsertRead_DummyHash`
builds this with `n = 10000` on a 128-bucket table. -/
def upsertSelfAll (n : Nat) : KvStore Nat :=
  (List.range n).foldl (fun s k => (s.upsert dummyHash k k).store) (kvInit Nat 128)

/-- The store of `InMemFaster.UpsertRead_DummyHash` after its 10000
upserts. -/
def dummyHashStore : KvStore Nat := upsertSelfAll 10000

/-! ## Concurrent Rmw on one key (`InMemFaster.Rmw_Concurrent`).

The per-key effect of one Rmw of delta `incr` follows the hooks of the
test's `RmwContext`: `RmwInitial` stores `incr` into a fresh record,
`RmwCopy` stores `old + incr`, `RmwAtomic` performs
`atomic_value_.fetch_add(incr)`.  All three apply the same delta once, so a
per-key history is a list of deltas; an interleaving of the sessions'
per-key histories is a permutation of their concatenation.  Modelled from
the spec: the engine applies each submitted Rmw's delta exactly once
(sections 4.4 and 8, property 4); values are `int64_t`, far from
wraparound in these tests, embedded as `Int`. -/

/-- One Rmw of delta `incr` against the per-key accumulator: `RmwInitial`
when no record exists yet, otherwise the `fetch_add` of `RmwAtomic` /
the `old + incr` of `RmwCopy`. -/
def rmwAccStep (s : Option Int) (incr : Int) : Option Int :=
  match s with
  | none => some incr
  | some v => some (v + incr)

/-- The canonical (unshuffled) per-key schedule of `InMemFaster.Rmw_Concurrent`:
8 threads, thread `i` contributing `2048 / 512 = 4` deltas of `2 * i` to each
key in the range. -/
def s4Sched : List Int :=
  ((List.range 8).map fun i => List.replicate 4 (2 * (i : Int))).flatten

/-! ## The record log offsets (spec section 4.2).

Modelled from the spec: the hybrid-log component (`head`, `safe_read_only`,
`read_only`, `tail` offsets and the records written at log addresses) lives
in the missing `core/faster.h`; the state and transitions below follow the
operations of spec section 4.2. -/

/-- Modelled from the spec: the record log's observable state — the four
offsets and the records written so far, keyed by their logical address. -/
structure LogState where
  head : Nat
  safeRO : Nat
  readOnly : Nat
  tailOff : Nat
  records : List (Nat × Nat)
deriving DecidableEq

/-- The log invariant `head ≤ safe_read_only ≤ read_only ≤ tail`. -/
def LogInv (s : LogState) : Prop :=
  s.head ≤ s.safeRO ∧ s.safeRO ≤ s.readOnly ∧ s.readOnly ≤ s.tailOff

instance (s : LogState) : Decidable (LogInv s) := by
  unfold LogInv; infer_instance

/-- Modelled from the spec: the record log's transitions (spec section 4.2) —
`allocate` bumps the tail; a record is written once at an unused address in
the mutable region; `shift_read_only` advances `read_only` at most to the
tail; epoch completion advances `safe_read_only` at most to `read_only`;
`head` advances at most to the flushed offset, itself at most
`safe_read_only`. -/
inductive LogStep : LogState → LogState → Prop where
  | alloc (s : LogState) (bytes : Nat) :
      LogStep s { s with tailOff := s.tailOff + bytes }
  | writeRec (s : LogState) (addr payload : Nat)
      (h1 : s.readOnly ≤ addr) (h2 : List.lookup addr s.records = none) :
      LogStep s { s with records := (addr, payload) :: s.records }
  | shiftReadOnly (s : LogState) (n : Nat) (h : n ≤ s.tailOff) :
      LogStep s { s with readOnly := max s.readOnly n }
  | shiftSafeReadOnly (s : LogState) (n : Nat) (h : n ≤ s.readOnly) :
      LogStep s { s with safeRO := max s.safeRO n }
  | shiftHead (s : LogState) (n : Nat) (h : n ≤ s.safeRO) :
      LogStep s { s with head := max s.head n }

/-- Zero or more log transitions. -/
inductive LogReaches : LogState → LogState → Prop where
  | refl (s : LogState) : LogReaches s s
  | step (s t u : LogState) : LogStep s t → LogReaches t u → LogReaches s u

/-- The log at store construction. -/
def logInit : LogState := ⟨0, 0, 0, 0, []⟩

/-- The log after one 64-byte allocation. -/
def logDemo : LogState := ⟨0, 0, 0, 64, []⟩

/-! ## Variable-length values (`InMemFaster.Rmw_ResizeValue_Concurrent`).

The test's `Value` carries an `AtomicGenLock`, a `size_` (record capacity,
`sizeof(Value) + length` at creation), a `length_`, and a trailing `int8_t`
buffer.  Its hooks are embedded below; the engine dispatch around them
(initial insert, in-place atomic update, append-with-copy when the atomic
update declines) is modelled from spec section 4.4. -/

/-- Wrap an integer into the `int8_t` range `[-128, 128)`. -/
def int8wrap (x : Int) : Int := (x + 128) % 256 - 128

/-- `sizeof(Value)` for the variable-length value: the 8-byte generation
lock plus the two `uint32_t` fields `size_` and `length_`. -/
def vlHeaderSize : Nat := 16

/-- A variable-length value: generation-lock word, `size_`, `length_`, and
the byte buffer (`int8_t` bytes as wrapped `Int`s). -/
structure VLValue where
  genWord : Nat
  valSize : Nat
  valLength : Nat
  buf : List Int
deriving DecidableEq

/-- `RmwContext::RmwInitial` of `Rmw_ResizeValue_Concurrent`: zero the gen
lock, set `size_ = sizeof(Value) + length`, `length_ = length`, and memset
the buffer to `incr`. -/
def VLValue.RmwInitial (incr : Int) (len : Nat) : VLValue :=
  ⟨0, vlHeaderSize + len, len, List.replicate len (int8wrap incr)⟩

/-- `RmwContext::RmwCopy`: build the new record as `RmwInitial` does, then
overwrite the overlap `idx < min(old.length_, length)` with
`old.buffer()[idx] + incr`; bytes past the old length keep the memset value
`incr` (they are NOT copied from the old record). -/
def VLValue.RmwCopy (incr : Int) (len : Nat) (old : VLValue) : VLValue :=
  ⟨0, vlHeaderSize + len, len,
    (List.range len).map fun i =>
      if i < min old.valLength len then int8wrap (old.buf.getD i 0 + incr)
      else int8wrap incr⟩

/-- `RmwContext::RmwAtomic`, single-thread semantics: spin on `try_lock`
until it succeeds or reports `replaced` (with one thread a failed
`try_lock` means the replaced bit is set, so the spin exits at once and the
hook returns false).  On acquiring the lock: if `size_` is too small for
the requested length, `unlock(true)` and return false; otherwise set
`length_`, add `incr` to each of the first `length` bytes, `unlock(false)`
and return true. -/
def VLValue.RmwAtomic (incr : Int) (len : Nat) (v : VLValue) : Bool × VLValue :=
  let t := AtomicGenLock.try_lock v.genWord
  if t.success then
    if v.valSize < vlHeaderSize + len then
      (false, { v with genWord := AtomicGenLock.unlock true t.word })
    else
      (true, { v with
        genWord := AtomicGenLock.unlock false t.word,
        valLength := len,
        buf := (List.range len).map fun i => int8wrap (v.buf.getD i 0 + incr) })
  else
    (false, v)

/-- Modelled from the spec: the engine's per-key Rmw dispatch for
variable-length values (spec section 4.4, missing `core/faster.h`) — insert
via `RmwInitial` when no record exists; otherwise try `RmwAtomic` in place;
when it returns false (record replaced, or too small), append a new record
built by `RmwCopy` from the old one. -/
def rmwVLStep (s : Option VLValue) (incr : Int) (len : Nat) : Option VLValue :=
  match s with
  | none => some (VLValue.RmwInitial incr len)
  | some v =>
    let r := VLValue.RmwAtomic incr len v
    if r.1 then some r.2
    else some (VLValue.RmwCopy incr len v)

/-- The per-key state after the first phase of
`InMemFaster.Rmw_ResizeValue_Concurrent`: 8 threads × 2048/512 = 32 Rmws of
`+3` on 5-byte buffers. -/
def vlPhase1 : Option VLValue :=
  (List.replicate 32 ()).foldl (fun s _ => rmwVLStep s 3 5) none

/-- The per-key state after the second phase: 32 more Rmws of `-4` on
8-byte buffers. -/
def vlPhase2 : Option VLValue :=
  (List.replicate 32 ()).foldl (fun s _ => rmwVLStep s (-4) 8) vlPhase1

/-! ### Theorems for the device (C8) -/

/-- C8: for every call on the in-memory device, `ReadAsync` and `WriteAsync`
synchronously invoke the supplied callback exactly once, with status `Ok` and
the requested length, and themselves return `Ok`; `TryComplete` always returns
`false`. -/
theorem null_file_async_callbacks (source dest length : Nat) :
    (NullFile.ReadAsync source length).1 = Status.Ok ∧
    (NullFile.ReadAsync source length).2 = [⟨Status.Ok, length⟩] ∧
    (NullFile.WriteAsync dest length).1 = Status.Ok ∧
    (NullFile.WriteAsync dest length).2 = [⟨Status.Ok, length⟩] ∧
    NullDisk.TryComplete = false :=
  ⟨rfl, rfl, rfl, rfl, rfl⟩

/-! ### Theorems for the generation lock (C10, C9) -/

/-- C10: `try_lock`, when it returns false, leaves the lock word unmodified
and sets its `replaced` out-parameter to true exactly when the observed word
had the replaced bit set; when it returns true, the only change to the word is
setting the locked bit — `gen_number` and the replaced bit are unchanged, and
the observed word had locked and replaced both clear. -/
theorem try_lock_frame (c : Nat) (hc : c < 2 ^ 64) :
    ((AtomicGenLock.try_lock c).success = false →
      (AtomicGenLock.try_lock c).word = c ∧
      ((AtomicGenLock.try_lock c).replacedOut = true ↔ replacedBit c = 1)) ∧
    ((AtomicGenLock.try_lock c).success = true →
      (AtomicGenLock.try_lock c).word = c + 2 ^ 62 ∧
      genOf (AtomicGenLock.try_lock c).word = genOf c ∧
      replacedBit (AtomicGenLock.try_lock c).word = replacedBit c ∧
      lockedBit (AtomicGenLock.try_lock c).word = 1 ∧
      lockedBit c = 0 ∧ replacedBit c = 0) := by
  by_cases h : c = c % 2 ^ 62
  · have hlt : c < 2 ^ 62 := by
      rw [h]; exact Nat.mod_lt _ (by norm_num)
    constructor
    · intro hfail
      simp only [AtomicGenLock.try_lock, if_pos h] at hfail
      exact Bool.noConfusion hfail
    · intro _
      have hmod : c % 2 ^ 62 = c := h.symm
      have hdiv62 : c / 2 ^ 62 = 0 := Nat.div_eq_of_lt hlt
      have hdiv63 : c / 2 ^ 63 = 0 := Nat.div_eq_of_lt (lt_trans hlt (by norm_num))
      have hword : (AtomicGenLock.try_lock c).word = c + 2 ^ 62 := by
        simp only [AtomicGenLock.try_lock, if_pos h]
        omega
      refine ⟨hword, ?_, ?_, ?_, ?_, ?_⟩
      · rw [hword]; unfold genOf; omega
      · rw [hword]; unfold replacedBit
        have h1 : (c + 2 ^ 62) / 2 ^ 63 = 0 := Nat.div_eq_of_lt (by omega)
        rw [h1, hdiv63]
      · rw [hword]; unfold lockedBit
        have h1 : (c + 2 ^ 62) / 2 ^ 62 = c / 2 ^ 62 + 1 := by
          omega
        rw [h1, hdiv62]
      · unfold lockedBit; rw [hdiv62]
      · unfold replacedBit; rw [hdiv63]
  · constructor
    · intro _
      constructor
      · simp only [AtomicGenLock.try_lock, if_neg h]
      · simp only [AtomicGenLock.try_lock, if_neg h, replacedBit]
        simp [decide_eq_true_iff]
    · intro hsucc
      simp only [AtomicGenLock.try_lock, if_neg h] at hsucc
      exact Bool.noConfusion hsucc

/-- Witness for `try_lock_frame` at the concrete word `2^63` (gen 0, unlocked,
replaced bit set): `try_lock` fails, leaves the word unchanged and reports
`replaced`. -/
theorem try_lock_frame_witness :
    (AtomicGenLock.try_lock (2 ^ 63)).word = 2 ^ 63 ∧
    ((AtomicGenLock.try_lock (2 ^ 63)).replacedOut = true ↔ replacedBit (2 ^ 63) = 1) :=
  (try_lock_frame (2 ^ 63) (by norm_num)).1 (by decide)

/-- C9 (code bug): starting from the fresh lock word 0, `try_lock` succeeds
(word becomes `2^62`), and the subsequent `unlock(false)` — the path taken by
`PutAtomic` and `RmwAtomic` after a *successful* in-place update — produces the
word `2^63 + 1`: the locked bit is clear and `gen_number` is one greater, but
the replaced bit is SET, and a subsequent `try_lock` on that word fails,
reporting `replaced`.  This contradicts the documented meaning of the
`replaced` parameter (the in-place-update path does not replace the record;
the branch comments and the `PutAtomic`/`RmwAtomic` call sites show the two
`unlock` branches are guard-inverted). -/
theorem unlock_false_sets_replaced :
    (AtomicGenLock.try_lock 0).success = true ∧
    AtomicGenLock.unlock false (AtomicGenLock.try_lock 0).word = 2 ^ 63 + 1 ∧
    lockedBit (AtomicGenLock.unlock false (AtomicGenLock.try_lock 0).word) = 0 ∧
    genOf (AtomicGenLock.unlock false (AtomicGenLock.try_lock 0).word) = genOf 0 + 1 ∧
    replacedBit (AtomicGenLock.unlock false (AtomicGenLock.try_lock 0).word) = 1 ∧
    (AtomicGenLock.try_lock
      (AtomicGenLock.unlock false (AtomicGenLock.try_lock 0).word)).success = false ∧
    (AtomicGenLock.try_lock
      (AtomicGenLock.unlock false (AtomicGenLock.try_lock 0).word)).replacedOut = true := by
  refine ⟨rfl, by decide, by decide, by decide, by decide, by decide, by decide⟩

/-! ### Helper lemmas for the spec-modelled engine -/

/-- Upsert always reports `Ok` and fires no callback. -/
theorem upsert_ok {V : Type} (st : KvStore V) (hash : Nat → Nat) (k : Nat) (v : V) :
    (st.upsert hash k v).status = Status.Ok ∧ (st.upsert hash k v).callbacks = [] := by
  cases hfind : chainFind k (st.chains (hash k % st.numBuckets)) with
  | none => simp [KvStore.upsert, hfind]
  | some e =>
    by_cases h : st.readOnlyAddr ≤ e.addr
    · simp [KvStore.upsert, hfind, h]
    · simp [KvStore.upsert, hfind, h]

/-- Read reports `Ok` or `NotFound` and fires no callback. -/
theorem read_ok_or_notfound {V : Type} (st : KvStore V) (hash : Nat → Nat) (k : Nat) :
    ((st.read hash k).status = Status.Ok ∨ (st.read hash k).status = Status.NotFound) ∧
    (st.read hash k).callbacks = [] := by
  cases hfind : chainFind k (st.chains (hash k % st.numBuckets)) with
  | none => simp [KvStore.read, hfind]
  | some e =>
    by_cases h : st.readOnlyAddr ≤ e.addr
    · simp [KvStore.read, hfind, h]
    · simp [KvStore.read, hfind, h]

/-- Rmw always reports `Ok` and fires no callback. -/
theorem rmw_ok {V : Type} (st : KvStore V) (hash : Nat → Nat) (k : Nat)
    (initial : V) (am cm : V → V) :
    (st.rmw hash k initial am cm).status = Status.Ok ∧
    (st.rmw hash k initial am cm).callbacks = [] := by
  cases hfind : chainFind k (st.chains (hash k % st.numBuckets)) with
  | none => simp [KvStore.rmw, hfind]
  | some e =>
    by_cases h : st.readOnlyAddr ≤ e.addr
    · simp [KvStore.rmw, hfind, h]
    · simp [KvStore.rmw, hfind, h]

/-- Reading a key right after appending a record for it finds that record:
status `Ok`, the appended value, and — when the pre-append store satisfied
`read_only ≤ tail` — the atomic path. -/
theorem read_append {V : Type} (st : KvStore V) (hash : Nat → Nat) (k : Nat) (v : V)
    (h0 : st.readOnlyAddr ≤ st.tailAddr) :
    ((st.append (hash k % st.numBuckets) k v).read hash k).status = Status.Ok ∧
    ((st.append (hash k % st.numBuckets) k v).read hash k).value = some v ∧
    ((st.append (hash k % st.numBuckets) k v).read hash k).path = some ReadPath.atomicGet := by
  unfold KvStore.append KvStore.read
  simp [chainFind, h0]

/-- In-place atomic update rewrites the value found by the chain walk and
keeps its address. -/
theorem chainFind_putAtomic {V : Type} (k : Nat) (v : V) (chain : List (RecEntry V))
    (e : RecEntry V) (hfind : chainFind k chain = some e) :
    chainFind k (chainPutAtomic k v chain) = some { e with val := v } := by
  induction chain with
  | nil => exact Option.noConfusion hfind
  | cons a rest ih =>
    by_cases h : a.key = k
    · rw [chainFind, if_pos h] at hfind
      cases hfind
      rw [chainPutAtomic, if_pos h, chainFind, if_pos h]
    · rw [chainFind, if_neg h] at hfind
      rw [chainPutAtomic, if_neg h, chainFind, if_neg h]
      exact ih hfind

/-! ### Theorems for the spec-modelled engine (C1, C2, C6) -/

/-- C1: with the in-memory device every Upsert, Read and Rmw completes
synchronously — the status is `Ok` (or `NotFound` for a Read of a missing
key), never `Pending`, and the completion callback is never invoked. -/
theorem inMemory_ops_never_pending {V : Type} (st : KvStore V) (hash : Nat → Nat)
    (k : Nat) (v initial : V) (am cm : V → V) :
    (st.upsert hash k v).status = Status.Ok ∧
    (st.upsert hash k v).callbacks = [] ∧
    ((st.read hash k).status = Status.Ok ∨ (st.read hash k).status = Status.NotFound) ∧
    (st.read hash k).callbacks = [] ∧
    (st.rmw hash k initial am cm).status = Status.Ok ∧
    (st.rmw hash k initial am cm).callbacks = [] :=
  ⟨(upsert_ok st hash k v).1, (upsert_ok st hash k v).2,
   (read_ok_or_notfound st hash k).1, (read_ok_or_notfound st hash k).2,
   (rmw_ok st hash k initial am cm).1, (rmw_ok st hash k initial am cm).2⟩

/-- C2: after `upsert(k, v)` completes with `Ok`, the next `read(k)` in the
same session returns `Ok` and delivers `v` through the atomic-read hook
(`GetAtomic`), never through the non-atomic `Get` — for any store whose
`read_only` boundary has not passed the log tail (true in every reachable
in-memory state). -/
theorem upsert_then_read_atomic {V : Type} (st : KvStore V) (hash : Nat → Nat)
    (k : Nat) (v : V) (h0 : st.readOnlyAddr ≤ st.tailAddr) :
    (st.upsert hash k v).status = Status.Ok ∧
    ((st.upsert hash k v).store.read hash k).status = Status.Ok ∧
    ((st.upsert hash k v).store.read hash k).value = some v ∧
    ((st.upsert hash k v).store.read hash k).path = some ReadPath.atomicGet := by
  refine ⟨(upsert_ok st hash k v).1, ?_⟩
  cases hfind : chainFind k (st.chains (hash k % st.numBuckets)) with
  | none =>
    have hr := read_append st hash k v h0
    simp only [KvStore.upsert, hfind]
    exact ⟨hr.1, hr.2.1, hr.2.2⟩
  | some e =>
    by_cases h : st.readOnlyAddr ≤ e.addr
    · have hfind2 := chainFind_putAtomic k v (st.chains (hash k % st.numBuckets)) e hfind
      simp [KvStore.upsert, hfind, h, KvStore.setChain, KvStore.read, hfind2]
    · have hr := read_append st hash k v h0
      simp only [KvStore.upsert, hfind, if_neg h]
      exact ⟨hr.1, hr.2.1, hr.2.2⟩

/-- Witness for `upsert_then_read_atomic`: the empty 128-bucket store,
key 7, value 23 (the first insert of `InMemFaster.UpsertRead`). -/
theorem upsert_then_read_atomic_witness :
    ((kvInit Nat 128).upsert dummyHash 7 23).status = Status.Ok ∧
    (((kvInit Nat 128).upsert dummyHash 7 23).store.read dummyHash 7).status = Status.Ok ∧
    (((kvInit Nat 128).upsert dummyHash 7 23).store.read dummyHash 7).value = some 23 ∧
    (((kvInit Nat 128).upsert dummyHash 7 23).store.read dummyHash 7).path =
      some ReadPath.atomicGet :=
  upsert_then_read_atomic (kvInit Nat 128) dummyHash 7 23 (Nat.le_refl 0)

/-- C6: Rmw never returns `NotFound` — it reports `Ok`, and when the chain
walk is exhausted without a key match it inserts an initial record built by
the `RmwInitial` hook (so the next read finds `initial`); a Read whose
chain is exhausted without a match is exactly the case that returns
`NotFound`. -/
theorem rmw_inserts_read_notfound {V : Type} (st : KvStore V) (hash : Nat → Nat)
    (k : Nat) (initial : V) (am cm : V → V) (h0 : st.readOnlyAddr ≤ st.tailAddr) :
    (st.rmw hash k initial am cm).status = Status.Ok ∧
    ((st.read hash k).status = Status.NotFound ↔
      chainFind k (st.chains (hash k % st.numBuckets)) = none) ∧
    (chainFind k (st.chains (hash k % st.numBuckets)) = none →
      ((st.rmw hash k initial am cm).store.read hash k).status = Status.Ok ∧
      ((st.rmw hash k initial am cm).store.read hash k).value = some initial) := by
  refine ⟨(rmw_ok st hash k initial am cm).1, ?_, ?_⟩
  · cases hfind : chainFind k (st.chains (hash k % st.numBuckets)) with
    | none => simp [KvStore.read, hfind]
    | some e =>
      by_cases h : st.readOnlyAddr ≤ e.addr
      · simp [KvStore.read, hfind, h]
      · simp [KvStore.read, hfind, h]
  · intro hnone
    have hr := read_append st hash k initial h0
    simp only [KvStore.rmw, hnone]
    exact ⟨hr.1, hr.2.1⟩

/-- Witness for `rmw_inserts_read_notfound`: the empty 128-bucket store,
key 5, `RmwInitial` value 7. -/
theorem rmw_inserts_read_notfound_witness :
    ((kvInit Nat 128).rmw dummyHash 5 7 id id).status = Status.Ok ∧
    (((kvInit Nat 128).read dummyHash 5).status = Status.NotFound ↔
      chainFind 5 ((kvInit Nat 128).chains (dummyHash 5 % (kvInit Nat 128).numBuckets)) = none) ∧
    (chainFind 5 ((kvInit Nat 128).chains (dummyHash 5 % (kvInit Nat 128).numBuckets)) = none →
      (((kvInit Nat 128).rmw dummyHash 5 7 id id).store.read dummyHash 5).status = Status.Ok ∧
      (((kvInit Nat 128).rmw dummyHash 5 7 id id).store.read dummyHash 5).value = some 7) :=
  rmw_inserts_read_notfound (kvInit Nat 128) dummyHash 5 7 id id (Nat.le_refl 0)

/-! ### Theorems for concurrent Rmw (C3) -/

/-- Folding `rmwAccStep` from an existing accumulator adds the list sum. -/
theorem foldl_rmwAccStep_some (l : List Int) (v : Int) :
    List.foldl rmwAccStep (some v) l = some (v + l.sum) := by
  induction l generalizing v with
  | nil => simp [List.foldl]
  | cons a t ih =>
    rw [List.foldl_cons]
    show List.foldl rmwAccStep (some (v + a)) t = some (v + (a :: t).sum)
    rw [ih (v + a), List.sum_cons]
    ring_nf

/-- C3: for `T` concurrent sessions each issuing `M` Rmw increments of delta
`c i` to the same key, the final per-key value is `M * (Σ i, c i)` under
every interleaving (any permutation of the sessions' delta lists); with the
`InMemFaster.Rmw_Concurrent` constants `T = 8` threads, `R = 2048` rmws per
thread over key range `K = 512` and thread `i` using delta `2 * i`, every
key receives `M = R / K` deltas per thread and reads
`(T * (T - 1)) * (R / K)`. -/
theorem rmw_concurrent_sum (T M : Nat) (c : Nat → Int) (sched : List Int)
    (hperm : sched.Perm (((List.range T).map fun i => List.replicate M (c i)).flatten))
    (hT : 0 < T) (hM : 0 < M) :
    List.foldl rmwAccStep none sched = some ((M : Int) * ((List.range T).map c).sum) := by
  have hsum : sched.sum = (M : Int) * ((List.range T).map c).sum := by
    rw [hperm.sum_eq, List.sum_flatten, List.map_map]
    have hmap : (List.map (List.sum ∘ fun i => List.replicate M (c i)) (List.range T)) =
        List.map (fun i => (M : Int) * c i) (List.range T) := by
      refine List.map_congr_left fun i _ => ?_
      show (List.replicate M (c i)).sum = (M : Int) * c i
      rw [List.sum_replicate, nsmul_eq_mul]
    rw [hmap, List.sum_map_mul_left]
  have hlen : sched.length = T * M := by
    rw [hperm.length_eq, List.length_flatten, List.map_map]
    have hmap : (List.map (List.length ∘ fun i => List.replicate M (c i)) (List.range T)) =
        List.map (Function.const Nat M) (List.range T) := by
      refine List.map_congr_left fun i _ => ?_
      exact List.length_replicate M (c i)
    rw [hmap, List.map_const, List.sum_replicate, List.length_range, smul_eq_mul]
  cases sched with
  | nil =>
    exfalso
    rw [List.length_nil] at hlen
    have hpos := Nat.mul_pos hT hM
    omega
  | cons a t =>
    rw [List.foldl_cons]
    show List.foldl rmwAccStep (some a) t = _
    rw [foldl_rmwAccStep_some t a, ← List.sum_cons, hsum]

/-- Witness for `rmw_concurrent_sum`: the canonical schedule of
`InMemFaster.Rmw_Concurrent` — 8 threads, 4 deltas of `2 * i` per key —
yields 224, which equals `(T * (T - 1)) * (R / K)` at `T = 8`, `R = 2048`,
`K = 512`. -/
theorem rmw_concurrent_sum_witness :
    List.foldl rmwAccStep none s4Sched = some 224 ∧
    (224 : Int) = ((8 * (8 - 1)) * (2048 / 512) : Int) :=
  ⟨(rmw_concurrent_sum 8 4 (fun i => 2 * (i : Int)) s4Sched (List.Perm.refl _)
      (by decide) (by decide)).trans (by decide),
   by decide⟩

/-! ### Theorems for the record log offsets (C4) -/

/-- One log transition preserves the offset invariant, never decreases any
of the four offsets, and never moves or destroys a written record. -/
theorem logStep_mono {s t : LogState} (hInv : LogInv s) (hst : LogStep s t) :
    LogInv t ∧ s.head ≤ t.head ∧ s.safeRO ≤ t.safeRO ∧ s.readOnly ≤ t.readOnly ∧
      s.tailOff ≤ t.tailOff ∧
      ∀ a p, List.lookup a s.records = some p → List.lookup a t.records = some p := by
  obtain ⟨h1, h2, h3⟩ := hInv
  cases hst with
  | alloc bytes =>
    exact ⟨⟨h1, h2, Nat.le_trans h3 (Nat.le_add_right _ _)⟩, Nat.le_refl _, Nat.le_refl _,
      Nat.le_refl _, Nat.le_add_right _ _, fun a p hp => hp⟩
  | writeRec addr payload hro hnone =>
    refine ⟨⟨h1, h2, h3⟩, Nat.le_refl _, Nat.le_refl _, Nat.le_refl _, Nat.le_refl _, ?_⟩
    intro a p hp
    by_cases hax : a = addr
    · rw [hax] at hp
      rw [hp] at hnone
      exact Option.noConfusion hnone
    · show List.lookup a ((addr, payload) :: s.records) = some p
      rw [List.lookup_cons]
      have : (a == addr) = false := beq_eq_false_iff_ne.mpr hax
      rw [this]
      exact hp
  | shiftReadOnly n h =>
    exact ⟨⟨h1, Nat.le_trans h2 (Nat.le_max_left _ _), Nat.max_le.mpr ⟨h3, h⟩⟩,
      Nat.le_refl _, Nat.le_refl _, Nat.le_max_left _ _, Nat.le_refl _, fun a p hp => hp⟩
  | shiftSafeReadOnly n h =>
    exact ⟨⟨Nat.le_trans h1 (Nat.le_max_left _ _), Nat.max_le.mpr ⟨h2, h⟩, h3⟩,
      Nat.le_refl _, Nat.le_max_left _ _, Nat.le_refl _, Nat.le_refl _, fun a p hp => hp⟩
  | shiftHead n h =>
    exact ⟨⟨Nat.max_le.mpr ⟨h1, h⟩, h2, h3⟩,
      Nat.le_max_left _ _, Nat.le_refl _, Nat.le_refl _, Nat.le_refl _, fun a p hp => hp⟩

/-- C4: from any state satisfying `head ≤ safe_read_only ≤ read_only ≤ tail`,
every sequence of log transitions preserves the invariant, each of the four
offsets only ever increases, and records never move: a record written at an
address is still found at that address, unchanged, in every later state. -/
theorem log_offsets_invariant (s t : LogState) (hInv : LogInv s) (hr : LogReaches s t) :
    LogInv t ∧ s.head ≤ t.head ∧ s.safeRO ≤ t.safeRO ∧ s.readOnly ≤ t.readOnly ∧
      s.tailOff ≤ t.tailOff ∧
      ∀ a p, List.lookup a s.records = some p → List.lookup a t.records = some p := by
  induction hr with
  | refl s =>
    exact ⟨hInv, Nat.le_refl _, Nat.le_refl _, Nat.le_refl _, Nat.le_refl _, fun a p hp => hp⟩
  | step s t u hst htu ih =>
    have hs := logStep_mono hInv hst
    have hu := ih hs.1
    exact ⟨hu.1, Nat.le_trans hs.2.1 hu.2.1, Nat.le_trans hs.2.2.1 hu.2.2.1,
      Nat.le_trans hs.2.2.2.1 hu.2.2.2.1, Nat.le_trans hs.2.2.2.2.1 hu.2.2.2.2.1,
      fun a p hp => hu.2.2.2.2.2 a p (hs.2.2.2.2.2 a p hp)⟩

/-- Witness for `log_offsets_invariant`: from the freshly constructed log, a
single 64-byte allocation reaches `logDemo`, which satisfies the invariant
with the tail advanced. -/
theorem log_offsets_invariant_witness :
    LogInv logDemo ∧ logInit.tailOff ≤ logDemo.tailOff :=
  ⟨(log_offsets_invariant logInit logDemo (by decide)
      (LogReaches.step _ _ _ (LogStep.alloc logInit 64) (LogReaches.refl _))).1,
   (log_offsets_invariant logInit logDemo (by decide)
      (LogReaches.step _ _ _ (LogStep.alloc logInit 64) (LogReaches.refl _))).2.2.2.2.1⟩

/-! ### Theorems for variable-length Rmw (C5) -/

set_option maxRecDepth 4000 in
/-- C5: in the `Rmw_ResizeValue_Concurrent` scenario, after the 32 per-key
`+3` Rmws on 5-byte buffers every key reads length 5 with every byte equal
to 96 (`= 8 * 4 * 3`); after the 32 replacement Rmws with 8-byte buffers
and delta `-4`, every key reads length 8 with first byte `-32`
(`= 8 * -4`) and last byte `-128` (`= 8 * -16`): the last byte starts
fresh from the replacement's memset, not copied from the 5-byte old
record. -/
theorem rmw_resize_value_outputs :
    vlPhase1.map VLValue.valLength = some 5 ∧
    vlPhase1.map VLValue.buf = some (List.replicate 5 96) ∧
    vlPhase2.map VLValue.valLength = some 8 ∧
    (vlPhase2.map fun v => v.buf.getD 0 0) = some (-32) ∧
    (vlPhase2.map fun v => v.buf.getD 7 0) = some (-128) ∧
    (96 : Int) = 8 * 4 * 3 ∧ (-32 : Int) = 8 * (-4) ∧ (-128 : Int) = 8 * (-16) := by
  decide

/-! ### Theorems for the degenerate-hash chain walk (C7) -/

/-- Upsert never changes the bucket count or the read-only boundary. -/
theorem upsert_frame {V : Type} (st : KvStore V) (hash : Nat → Nat) (k : Nat) (v : V) :
    (st.upsert hash k v).store.numBuckets = st.numBuckets ∧
    (st.upsert hash k v).store.readOnlyAddr = st.readOnlyAddr := by
  cases hfind : chainFind k (st.chains (hash k % st.numBuckets)) with
  | none => simp [KvStore.upsert, hfind, KvStore.append]
  | some e =>
    by_cases h : st.readOnlyAddr ≤ e.addr
    · simp [KvStore.upsert, hfind, h, KvStore.setChain]
    · simp [KvStore.upsert, hfind, h, KvStore.append]

/-- Unfolding one step of the upsert fold. -/
theorem upsertSelfAll_succ (n : Nat) :
    upsertSelfAll (n + 1) = ((upsertSelfAll n).upsert dummyHash n n).store := by
  unfold upsertSelfAll
  rw [List.range_succ, List.foldl_append, List.foldl_cons, List.foldl_nil]

/-- The fold keeps 128 buckets and a zero read-only boundary. -/
theorem upsertSelfAll_frame (n : Nat) :
    (upsertSelfAll n).numBuckets = 128 ∧ (upsertSelfAll n).readOnlyAddr = 0 := by
  induction n with
  | zero => exact ⟨rfl, rfl⟩
  | succ n ih =>
    rw [upsertSelfAll_succ]
    exact ⟨(upsert_frame _ _ _ _).1.trans ih.1, (upsert_frame _ _ _ _).2.trans ih.2⟩

/-- After upserting keys `0..n-1` (all hashing to bucket 42), the chain walk
in bucket 42 misses every key `≥ n` and finds, for every key `< n`, a record
holding exactly that key as its value. -/
theorem upsertSelfAll_chain (n : Nat) :
    (∀ k, n ≤ k → chainFind k ((upsertSelfAll n).chains 42) = none) ∧
    (∀ k, k < n → ∃ a, chainFind k ((upsertSelfAll n).chains 42) =
      some ⟨k, a, k⟩) := by
  induction n with
  | zero => exact ⟨fun k _ => rfl, fun k hk => absurd hk (Nat.not_lt_zero k)⟩
  | succ n ih =>
    have h128 := (upsertSelfAll_frame n).1
    have hnone := ih.1 n (Nat.le_refl n)
    have hchain : (upsertSelfAll (n + 1)).chains 42 =
        (⟨n, (upsertSelfAll n).tailAddr, n⟩ : RecEntry Nat) ::
          (upsertSelfAll n).chains 42 := by
      rw [upsertSelfAll_succ]
      simp [KvStore.upsert, dummyHash, h128, hnone, KvStore.append]
    refine ⟨?_, ?_⟩
    · intro k hk
      rw [hchain]
      simp only [chainFind]
      have hne : n ≠ k := by omega
      rw [if_neg hne]
      exact ih.1 k (by omega)
    · intro k hk
      rcases Nat.lt_succ_iff_lt_or_eq.mp hk with hlt | heq
      · obtain ⟨a, ha⟩ := ih.2 k hlt
        refine ⟨a, ?_⟩
        rw [hchain]
        simp only [chainFind]
        have hne : n ≠ k := by omega
        rw [if_neg hne]
        exact ha
      · subst heq
        refine ⟨(upsertSelfAll k).tailAddr, ?_⟩
        rw [hchain]
        simp [chainFind]

/-- A successful chain walk at or above the read-only boundary yields an
atomic read of the found record's value. -/
theorem read_found {V : Type} (st : KvStore V) (hash : Nat → Nat) (k : Nat)
    (e : RecEntry V)
    (hfind : chainFind k (st.chains (hash k % st.numBuckets)) = some e)
    (hro : st.readOnlyAddr ≤ e.addr) :
    (st.read hash k).status = Status.Ok ∧ (st.read hash k).value = some e.val ∧
    (st.read hash k).path = some ReadPath.atomicGet := by
  simp [KvStore.read, hfind, hro]

/-- C7: with the constant hash (`Key::GetHash` returning 42, so every key
lands in the same bucket), after the 10000 upserts of
`InMemFaster.UpsertRead_DummyHash` — keys `0..9999`, each storing its key
as its value — reading each key returns `Ok` with exactly that key's value,
delivered through the atomic path: the chain walk finds the correct record
among 10000 chained records. -/
theorem dummy_hash_chain_walk (k : Fin 10000) :
    (dummyHashStore.read dummyHash k.val).status = Status.Ok ∧
    (dummyHashStore.read dummyHash k.val).value = some k.val ∧
    (dummyHashStore.read dummyHash k.val).path = some ReadPath.atomicGet := by
  rw [show dummyHashStore = upsertSelfAll 10000 from rfl]
  obtain ⟨a, ha⟩ := (upsertSelfAll_chain 10000).2 k.val k.isLt
  have hb : dummyHash k.val % (upsertSelfAll 10000).numBuckets = 42 := by
    rw [(upsertSelfAll_frame 10000).1]
    rfl
  have hfind : chainFind k.val
      ((upsertSelfAll 10000).chains
        (dummyHash k.val % (upsertSelfAll 10000).numBuckets)) =
      some (⟨k.val, a, k.val⟩ : RecEntry Nat) := by
    rw [hb]
    exact ha
  have hro : (upsertSelfAll 10000).readOnlyAddr ≤
      (⟨k.val, a, k.val⟩ : RecEntry Nat).addr := by
    rw [(upsertSelfAll_frame 10000).2]
    exact Nat.zero_le a
  have hr := read_found (upsertSelfAll 10000) dummyHash k.val ⟨k.val, a, k.val⟩ hfind hro
  exact ⟨hr.1, hr.2.1, hr.2.2⟩
